import Mathlib

/-!
Shallow embedding of the `cubo-plus` Bitcoin block decoder
(`src/main.rs` and `src/utils.rs`).

Buffers are `List Nat` (each element a byte value, `< 256` for data that can
actually occur on the wire).  Every Rust parser has type
`&[u8] -> Result<(T, &[u8]), Error>`, but it can also panic at runtime
(out-of-range slice indexing, `todo!()`); the embedding therefore returns a
three-way outcome `PResult`.
-/

set_option maxHeartbeats 1000000
set_option maxRecDepth 100000

/-- Outcome of running one of the Rust parsers: success with the parsed value
and the remaining bytes, a `Result::Err` carrying its message, or a runtime
panic (out-of-range slice indexing, or the todo macro). -/
inductive PResult (α : Type) where
  | ok (val : α) (rest : List Nat)
  | error (msg : String)
  | panicked
deriving DecidableEq, Repr

/-- True exactly on the `error` outcome (a returned `Result::Err`, as opposed
to a panic). -/
def PResult.isError {α : Type} : PResult α → Bool
  | .error _ => true
  | _ => false

/-- The Rust slice expression `&bytes[lo..hi]`: panics (here `none`) unless
`lo ≤ hi ∧ hi ≤ bytes.len()`; otherwise the sub-slice. -/
def slice? (l : List Nat) (lo hi : Nat) : Option (List Nat) :=
  if lo ≤ hi ∧ hi ≤ l.length then some ((l.drop lo).take (hi - lo)) else none

/-- Little-endian reconstruction, `uN::from_le_bytes`. -/
def leNat : List Nat → Nat
  | [] => 0
  | b :: bs => b + 256 * leNat bs

/-- Two's-complement reading of 4 little-endian bytes, `i32::from_le_bytes`. -/
def i32ofLe (l : List Nat) : Int :=
  if leNat l < 2 ^ 31 then (leNat l : Int) else (leNat l : Int) - 2 ^ 32

/-- Sequencing of parse steps: Rust's `let (v, bytes) = ...?` threading, with
`Err` and panics propagated unchanged. -/
def pbind {α β : Type} (r : PResult α) (f : α → List Nat → PResult β) : PResult β :=
  match r with
  | .ok v rest => f v rest
  | .error e => .error e
  | .panicked => .panicked

/-- `struct VarInt(u64)`. -/
structure VarInt where
  val : Nat
deriving DecidableEq, Repr

/-- `impl Parse for VarInt` (main.rs 14-25).  `bytes[0]` panics on an empty
buffer; each multi-byte arm slices `bytes[1..k]`, which panics when fewer
bytes remain.  The final arm is the `0xFF` discriminant (the Rust match on a
`u8` is exhaustive with `..=0xFC`, `0xFD`, `0xFE`, `0xFF`). -/
def VarInt.parse (bytes : List Nat) : PResult VarInt :=
  match bytes with
  | [] => .panicked
  | b0 :: rest =>
    if b0 ≤ 0xFC then .ok ⟨b0⟩ rest
    else if b0 = 0xFD then
      match slice? bytes 1 3 with
      | some s => .ok ⟨leNat s⟩ (bytes.drop 3)
      | none => .panicked
    else if b0 = 0xFE then
      match slice? bytes 1 5 with
      | some s => .ok ⟨leNat s⟩ (bytes.drop 5)
      | none => .panicked
    else
      match slice? bytes 1 9 with
      | some s => .ok ⟨leNat s⟩ (bytes.drop 9)
      | none => .panicked

/-- `impl Parse for i32` (main.rs 27-32): `bytes[0..4]` panics when fewer
than 4 bytes remain (the `try_into()?` error path is unreachable, since a
successful 4-element slice always converts). -/
def I32.parse (bytes : List Nat) : PResult Int :=
  match slice? bytes 0 4 with
  | some s => .ok (i32ofLe s) (bytes.drop 4)
  | none => .panicked

/-- `impl Parse for u32` (main.rs 33-38). -/
def U32.parse (bytes : List Nat) : PResult Nat :=
  match slice? bytes 0 4 with
  | some s => .ok (leNat s) (bytes.drop 4)
  | none => .panicked

/-- `impl Parse for u8` (main.rs 39-44): `bytes[0]` panics on empty input. -/
def U8.parse (bytes : List Nat) : PResult Nat :=
  match bytes with
  | [] => .panicked
  | b :: rest => .ok b rest

/-- `impl Parse for u64` (main.rs 45-50). -/
def U64.parse (bytes : List Nat) : PResult Nat :=
  match slice? bytes 0 8 with
  | some s => .ok (leNat s) (bytes.drop 8)
  | none => .panicked

/-- `impl Parse for [u8; 32]` (main.rs 52-57): `bytes[..32]` panics when
fewer than 32 bytes remain. -/
def Hash32.parse (bytes : List Nat) : PResult (List Nat) :=
  match slice? bytes 0 32 with
  | some s => .ok s (bytes.drop 32)
  | none => .panicked

/-- `struct OutPoint`. -/
structure OutPoint where
  txid : List Nat
  vout : Nat
deriving DecidableEq, Repr

/-- `OutPoint::is_coinbase` (main.rs 111-115). -/
def OutPoint.is_coinbase (o : OutPoint) : Bool :=
  o.txid == List.replicate 32 0 && o.vout == 0xFFFFFFFF

/-- `impl Parse for OutPoint` (main.rs 117-128). -/
def OutPoint.parse (bytes : List Nat) : PResult OutPoint :=
  pbind (Hash32.parse bytes) fun txid bytes =>
  pbind (U32.parse bytes) fun vout bytes =>
  .ok ⟨txid, vout⟩ bytes

/-- `enum OpCode` (main.rs 152-161). -/
inductive OpCode where
  | Return
  | Dup
  | Equal
  | CheckSig
  | Hash160
  | EqualVerify
  | Push (data : List Nat)
deriving DecidableEq, Repr

/-- `impl Parse for OpCode` (main.rs 163-188).  `bytes[0]` panics on empty
input; the push arms slice `bytes[1..v+1]` / index `bytes[1]` and slice
`bytes[2..len+2]`, panicking when the declared length exceeds the remaining
bytes; the catch-all arm is `todo!()`, which panics. -/
def OpCode.parse (bytes : List Nat) : PResult OpCode :=
  match bytes with
  | [] => .panicked
  | b0 :: _ =>
    if 1 ≤ b0 ∧ b0 ≤ 75 then
      match slice? bytes 1 (b0 + 1) with
      | some data => .ok (.Push data) (bytes.drop (b0 + 1))
      | none => .panicked
    else if b0 = 76 then
      match bytes with
      | _ :: len :: _ =>
        match slice? bytes 2 (len + 2) with
        | some data => .ok (.Push data) (bytes.drop (len + 2))
        | none => .panicked
      | _ => .panicked
    else if b0 = 106 then .ok .Return (bytes.drop 1)
    else if b0 = 118 then .ok .Dup (bytes.drop 1)
    else if b0 = 135 then .ok .Equal (bytes.drop 1)
    else if b0 = 136 then .ok .EqualVerify (bytes.drop 1)
    else if b0 = 169 then .ok .Hash160 (bytes.drop 1)
    else if b0 = 172 then .ok .CheckSig (bytes.drop 1)
    else .panicked

/-- `struct Script(Vec<OpCode>)`. -/
structure Script where
  ops : List OpCode
deriving DecidableEq, Repr

/-- The `while !script_bytes.is_empty()` loop of `Script::parse`
(main.rs 198-202), with the region length as structural fuel.  A successful
`OpCode::parse` always consumes at least one byte, so starting the fuel at
the region's length the zero-fuel arm is never reached. -/
def parseOpsFuel : Nat → List Nat → PResult (List OpCode)
  | _, [] => .ok [] []
  | 0, _ :: _ => .panicked
  | fuel + 1, b :: bs =>
    pbind (OpCode.parse (b :: bs)) fun opcode script_bytes =>
    pbind (parseOpsFuel fuel script_bytes) fun opcodes r =>
    .ok (opcode :: opcodes) r

/-- The opcode loop run on a script region. -/
def parseOps (sb : List Nat) : PResult (List OpCode) :=
  parseOpsFuel sb.length sb

/-- `impl Parse for Script` (main.rs 193-206): VarInt length, then
`&bytes[..len]` (panics when the length exceeds the remaining bytes), the
opcode loop over that region, and remainder `&bytes[len..]`. -/
def Script.parse (bytes : List Nat) : PResult Script :=
  pbind (VarInt.parse bytes) fun len bytes =>
  match slice? bytes 0 len.val with
  | some script_bytes =>
    pbind (parseOps script_bytes) fun opcodes _ =>
    .ok ⟨opcodes⟩ (bytes.drop len.val)
  | none => .panicked

/-- The counting loop of `impl<T: Parse> Parse for Vec<T>` (main.rs 134-139):
parse `n` consecutive elements, threading the remainder. -/
def parseCount {α : Type} (p : List Nat → PResult α) : Nat → List Nat → PResult (List α)
  | 0, bytes => .ok [] bytes
  | n + 1, bytes =>
    pbind (p bytes) fun item remainder =>
    pbind (parseCount p n remainder) fun items r =>
    .ok (item :: items) r

/-- `impl<T: Parse> Parse for Vec<T>` (main.rs 130-143): VarInt count, then
that many elements. -/
def Vec.parse {α : Type} (p : List Nat → PResult α) (bytes : List Nat) : PResult (List α) :=
  pbind (VarInt.parse bytes) fun len bytes =>
  parseCount p len.val bytes

/-- `struct TxIn`. -/
structure TxIn where
  previous_output : OutPoint
  script_sig : Script
  sequence : Nat
deriving DecidableEq, Repr

/-- `impl Parse for TxIn` (main.rs 208-227).  Note the coinbase branch: it
parses a VarInt and discards its value (`let (_, bytes) = VarInt::parse...`),
continuing directly after the VarInt without skipping any script bytes. -/
def TxIn.parse (bytes : List Nat) : PResult TxIn :=
  pbind (OutPoint.parse bytes) fun previous_output bytes =>
  pbind (if previous_output.is_coinbase then
            pbind (VarInt.parse bytes) fun _ bytes => .ok (Script.mk []) bytes
          else
            Script.parse bytes) fun script_sig bytes =>
  pbind (U32.parse bytes) fun sequence bytes =>
  .ok ⟨previous_output, script_sig, sequence⟩ bytes

/-- `struct TxOut`. -/
structure TxOut where
  value : Nat
  script_pubkey : Script
deriving DecidableEq, Repr

/-- `impl Parse for TxOut` (main.rs 235-246). -/
def TxOut.parse (bytes : List Nat) : PResult TxOut :=
  pbind (U64.parse bytes) fun value bytes =>
  pbind (Script.parse bytes) fun script_pubkey bytes =>
  .ok ⟨value, script_pubkey⟩ bytes

/-- `struct Transaction`. -/
structure Transaction where
  version : Nat
  inputs : List TxIn
  outputs : List TxOut
  locktime : Nat
deriving DecidableEq, Repr

/-- `impl Parse for Transaction` (main.rs 256-269). -/
def Transaction.parse (bytes : List Nat) : PResult Transaction :=
  pbind (U32.parse bytes) fun version bytes =>
  pbind (Vec.parse TxIn.parse bytes) fun inputs bytes =>
  pbind (Vec.parse TxOut.parse bytes) fun outputs bytes =>
  pbind (U32.parse bytes) fun locktime bytes =>
  .ok ⟨version, inputs, outputs, locktime⟩ bytes

/-- `struct BlockHeader`. -/
structure BlockHeader where
  version : Int
  prev_block : List Nat
  merkle_root : List Nat
  timestamp : Nat
  bits : Nat
  nonce : Nat
deriving DecidableEq, Repr

/-- `impl Parse for BlockHeader` (main.rs 69-84). -/
def BlockHeader.parse (bytes : List Nat) : PResult BlockHeader :=
  pbind (I32.parse bytes) fun version bytes =>
  pbind (Hash32.parse bytes) fun prev_block bytes =>
  pbind (Hash32.parse bytes) fun merkle_root bytes =>
  pbind (U32.parse bytes) fun timestamp bytes =>
  pbind (U32.parse bytes) fun bits bytes =>
  pbind (U32.parse bytes) fun nonce bytes =>
  .ok ⟨version, prev_block, merkle_root, timestamp, bits, nonce⟩ bytes

/-- `struct Block`. -/
structure Block where
  header : BlockHeader
  transactions : List Transaction
deriving DecidableEq, Repr

/-- `impl Parse for Block` (main.rs 92-103). -/
def Block.parse (bytes : List Nat) : PResult Block :=
  pbind (BlockHeader.parse bytes) fun header bytes =>
  pbind (Vec.parse Transaction.parse bytes) fun transactions bytes =>
  .ok ⟨header, transactions⟩ bytes

/-- The nested `char_to_u8` of `from_hex` (utils.rs 4-6), i.e. Rust's
`char::to_digit(16)` written out on the code point: ASCII digits and the
letters a-f / A-F, anything else is the "Invalid hex digit" error. -/
def char_to_u8 (c : Char) : Except String Nat :=
  if 48 ≤ c.toNat ∧ c.toNat ≤ 57 then .ok (c.toNat - 48)
  else if 97 ≤ c.toNat ∧ c.toNat ≤ 102 then .ok (c.toNat - 87)
  else if 65 ≤ c.toNat ∧ c.toNat ≤ 70 then .ok (c.toNat - 55)
  else .error "Invalid hex digit"

/-- The `chunks_exact(2)` + `map` + `collect::<Result<_, _>>` pipeline of
`from_hex` (utils.rs 8-15): each two-character chunk becomes one byte,
`hi <<< 4 ||| lo`; a trailing lone character is not part of any chunk (it has
already been rejected by the length check); the first failing chunk's error
is the overall result. -/
def hexPairs : List Char → Except String (List Nat)
  | c0 :: c1 :: rest =>
    match char_to_u8 c0 with
    | .error e => .error e
    | .ok hi =>
      match char_to_u8 c1 with
      | .error e => .error e
      | .ok lo =>
        match hexPairs rest with
        | .error e => .error e
        | .ok tail => .ok ((hi <<< 4 ||| lo) :: tail)
  | _ => .ok []

/-- `from_hex` (utils.rs 3-16): reject an odd number of characters
(`chunks_exact(2).remainder()` nonempty), then decode the chunks. -/
def from_hex (s : List Char) : Except String (List Nat) :=
  if s.length % 2 = 1 then .error "Odd number of chars"
  else hexPairs s

/-- The nested `u8_to_char` of `to_hex` (utils.rs 19-25): low nibble to a
lowercase hex character (0-9 from code point 0x30, a-f from 87 + value). -/
def u8_to_char (val : Nat) : Char :=
  if val &&& 0x0F ≤ 9 then Char.ofNat (0x30 + (val &&& 0x0F))
  else Char.ofNat (87 + (val &&& 0x0F))

/-- `to_hex` (utils.rs 18-28): two characters per byte, high nibble first
(the flattened `map` over the bytes). -/
def to_hex : List Nat → List Char
  | [] => []
  | b :: bs => u8_to_char (b >>> 4) :: u8_to_char b :: to_hex bs

/-- ASCII lowercasing, used to state the spec's second round-trip law. -/
def asciiLower (c : Char) : Char :=
  if 65 ≤ c.toNat ∧ c.toNat ≤ 90 then Char.ofNat (c.toNat + 32) else c

/-- A hexadecimal digit in either case, as the spec uses the term. -/
def isHexDigitChar (c : Char) : Bool :=
  (48 ≤ c.toNat && c.toNat ≤ 57) || (97 ≤ c.toNat && c.toNat ≤ 102) ||
    (65 ≤ c.toNat && c.toNat ≤ 70)

instance {ε α : Type} [DecidableEq ε] [DecidableEq α] : DecidableEq (Except ε α) := fun x y =>
  match x, y with
  | .ok a, .ok b => if h : a = b then .isTrue (by rw [h]) else .isFalse (by simp [h])
  | .error a, .error b => if h : a = b then .isTrue (by rw [h]) else .isFalse (by simp [h])
  | .ok _, .error _ => .isFalse (by simp)
  | .error _, .ok _ => .isFalse (by simp)

/-- A parser leaves a remainder that is a suffix of its input (it consumes a
prefix): whenever it succeeds, the remainder is a `drop` of the input. -/
def SuffixRem {α : Type} (p : List Nat → PResult α) : Prop :=
  ∀ bytes v rem, p bytes = .ok v rem → ∃ n, rem = List.drop n bytes

/-! ## Helper lemmas -/

theorem pbind_ok {α β : Type} {r : PResult α} {f : α → List Nat → PResult β} {v : β}
    {rem : List Nat} (h : pbind r f = .ok v rem) :
    ∃ w mid, r = .ok w mid ∧ f w mid = .ok v rem := by
  cases r with
  | ok w mid => exact ⟨w, mid, rfl, h⟩
  | error e => simp [pbind] at h
  | panicked => simp [pbind] at h

theorem slice?_some {l s : List Nat} {lo hi : Nat} (h : slice? l lo hi = some s) :
    lo ≤ hi ∧ hi ≤ l.length ∧ s = (l.drop lo).take (hi - lo) := by
  unfold slice? at h
  split at h
  · rename_i hc
    refine ⟨hc.1, hc.2, ?_⟩
    injection h with h
    exact h.symm
  · cases h

theorem slice?_eq {l : List Nat} {lo hi : Nat} (h1 : lo ≤ hi) (h2 : hi ≤ l.length) :
    slice? l lo hi = some ((l.drop lo).take (hi - lo)) := by
  simp [slice?, h1, h2]

theorem I32_parse_eq {bytes : List Nat} (h : 4 ≤ bytes.length) :
    I32.parse bytes = .ok (i32ofLe (bytes.take 4)) (bytes.drop 4) := by
  unfold I32.parse
  rw [slice?_eq (by omega) h]
  simp

theorem U32_parse_eq {bytes : List Nat} (h : 4 ≤ bytes.length) :
    U32.parse bytes = .ok (leNat (bytes.take 4)) (bytes.drop 4) := by
  unfold U32.parse
  rw [slice?_eq (by omega) h]
  simp

theorem U64_parse_eq {bytes : List Nat} (h : 8 ≤ bytes.length) :
    U64.parse bytes = .ok (leNat (bytes.take 8)) (bytes.drop 8) := by
  unfold U64.parse
  rw [slice?_eq (by omega) h]
  simp

theorem Hash32_parse_eq {bytes : List Nat} (h : 32 ≤ bytes.length) :
    Hash32.parse bytes = .ok (bytes.take 32) (bytes.drop 32) := by
  unfold Hash32.parse
  rw [slice?_eq (by omega) h]
  simp

/-! ## C1 -/

/-- C1: the claim says the coinbase branch of TxIn decoding skips as many
bytes as the decoded VarInt declares.  The code decodes the VarInt and then
continues directly after it: on a coinbase input whose declared script length
is 1 (script byte 0xAA, followed by sequence 0xFFFFFFFF), the four bytes read
as the sequence number are 0xAA 0xFF 0xFF 0xFF (value 4294967210, not
4294967295) and one byte 0xFF is left over, showing that no script byte was
discarded. -/
theorem c1_coinbase_no_skip :
    TxIn.parse (List.replicate 32 0 ++ [255, 255, 255, 255, 1, 0xAA, 255, 255, 255, 255]) =
      .ok ⟨⟨List.replicate 32 0, 4294967295⟩, ⟨[]⟩, 4294967210⟩ [255] := by
  decide

/-! ## C2 -/

/-- C2: the claim says a too-short buffer makes the primitive field decoders
return a `TruncatedInput` error result rather than crash.  In the code the
slice expressions (`bytes[0..4]`, `bytes[..32]`, `bytes[0]`) panic before the
fallible `try_into()?` conversion can run, so each decoder panics on a short
buffer and never produces an error result; in particular decoding a u32 from
the 2-byte buffer panics. -/
theorem c2_truncation_panics :
    U32.parse [1, 2] = .panicked ∧ (U32.parse [1, 2]).isError = false ∧
    U8.parse [] = .panicked ∧
    I32.parse [1, 2, 3] = .panicked ∧
    U64.parse [1, 2, 3, 4, 5, 6, 7] = .panicked ∧
    Hash32.parse (List.replicate 31 0) = .panicked := by
  decide

/-! ## C3 -/

/-- C3 counterexample: the claim says the opcode decoder returns failures as
error results, not crashes; but on the unhandled byte 0xFF the code hits
`todo!()` and panics, and on a push whose declared length (3) exceeds the
remaining region (1 byte) the slice `bytes[1..4]` panics. -/
theorem c3_counterexample :
    OpCode.parse [255] = .panicked ∧ (OpCode.parse [255]).isError = false ∧
    OpCode.parse [3, 1] = .panicked ∧ (OpCode.parse [3, 1]).isError = false := by
  decide

/-- C3 amended: within a script region, decoding one opcode aborts with a
panic (not an error result) when a direct push's declared length exceeds the
remaining bytes, when a PUSHDATA1 length byte is missing or its declared
length exceeds the remaining bytes, and for any leading byte outside the
handled set {1..=75, 76, 106, 118, 135, 136, 169, 172} (the `todo!()` arm);
in particular the byte 0xFF panics. -/
theorem c3_opcode_panics :
    (∀ b0 rest, 1 ≤ b0 → b0 ≤ 75 → (b0 :: rest).length < b0 + 1 →
      OpCode.parse (b0 :: rest) = .panicked) ∧
    (∀ len rest, (76 :: len :: rest).length < len + 2 →
      OpCode.parse (76 :: len :: rest) = .panicked) ∧
    OpCode.parse [76] = .panicked ∧
    (∀ b0 rest, ¬(1 ≤ b0 ∧ b0 ≤ 75) → b0 ≠ 76 →
      b0 ∉ ([106, 118, 135, 136, 169, 172] : List Nat) →
      OpCode.parse (b0 :: rest) = .panicked) ∧
    OpCode.parse [255] = .panicked := by
  refine ⟨?_, ?_, by decide, ?_, by decide⟩
  · intro b0 rest h1 h75 hlen
    simp only [OpCode.parse]
    rw [if_pos ⟨h1, h75⟩]
    have hs : slice? (b0 :: rest) 1 (b0 + 1) = none := by
      unfold slice?
      rw [if_neg]
      omega
    rw [hs]
  · intro len rest hlen
    simp only [OpCode.parse]
    rw [if_neg (by omega : ¬(1 ≤ 76 ∧ 76 ≤ 75)), if_pos trivial]
    have hs : slice? (76 :: len :: rest) 2 (len + 2) = none := by
      unfold slice?
      rw [if_neg]
      omega
    rw [hs]
  · intro b0 rest hrange h76 hset
    simp only [List.mem_cons, List.not_mem_nil] at hset
    simp only [OpCode.parse]
    rw [if_neg hrange, if_neg h76, if_neg (by omega), if_neg (by omega), if_neg (by omega),
      if_neg (by omega), if_neg (by omega), if_neg (by omega)]

/-- C3 witness: the amended theorem applied at concrete inputs: a direct push
of declared length 5 with only 2 following bytes, and the unhandled leading
byte 0. -/
theorem c3_witness :
    OpCode.parse [5, 1, 2] = .panicked ∧ OpCode.parse [0] = .panicked :=
  ⟨c3_opcode_panics.1 5 [1, 2] (by decide) (by decide) (by decide),
   c3_opcode_panics.2.2.2.1 0 [] (by decide) (by decide) (by decide)⟩

/-! ## C5 -/

/-- C5: VarInt decoding selects the width from the first byte: a value at
most 0xFC is itself the result (1 byte consumed); 0xFD, 0xFE, 0xFF are
followed by a 2-, 4-, 8-byte little-endian value (3, 5, 9 bytes consumed);
non-minimal encodings are accepted; the spec's boundary examples hold. -/
theorem c5_varint :
    (∀ b0 rest, b0 ≤ 0xFC → VarInt.parse (b0 :: rest) = .ok ⟨b0⟩ rest) ∧
    (∀ a b rest, VarInt.parse (0xFD :: a :: b :: rest) = .ok ⟨a + 256 * b⟩ rest) ∧
    (∀ a b c d rest, VarInt.parse (0xFE :: a :: b :: c :: d :: rest) =
      .ok ⟨a + 256 * b + 65536 * c + 16777216 * d⟩ rest) ∧
    (∀ x0 x1 x2 x3 x4 x5 x6 x7 rest,
      VarInt.parse (0xFF :: x0 :: x1 :: x2 :: x3 :: x4 :: x5 :: x6 :: x7 :: rest) =
        .ok ⟨x0 + 256 * x1 + 65536 * x2 + 16777216 * x3 + 4294967296 * x4 +
          1099511627776 * x5 + 281474976710656 * x6 + 72057594037927936 * x7⟩ rest) ∧
    VarInt.parse [0xFC] = .ok ⟨252⟩ [] ∧
    VarInt.parse [0xFD, 0x00, 0x01] = .ok ⟨256⟩ [] ∧
    VarInt.parse (0xFF :: List.replicate 8 0xFF) = .ok ⟨2 ^ 64 - 1⟩ [] ∧
    VarInt.parse [0xFD, 5, 0] = .ok ⟨5⟩ [] := by
  refine ⟨?_, ?_, ?_, ?_, by decide, by decide, by decide, by decide⟩
  · intro b0 rest h
    simp [VarInt.parse, h]
  · intro a b rest
    simp [VarInt.parse, slice?, leNat]
    try ring
  · intro a b c d rest
    simp [VarInt.parse, slice?, leNat]
    try ring
  · intro x0 x1 x2 x3 x4 x5 x6 x7 rest
    simp [VarInt.parse, slice?, leNat]
    try ring

/-- C5 witness: the first conjunct (single-byte form) applied at discriminant
7 with one trailing byte. -/
theorem c5_witness : VarInt.parse [7, 9] = .ok ⟨7⟩ [9] :=
  c5_varint.1 7 [9] (by decide)

/-! ## C4 -/

/-- C4: Script decoding reads a VarInt byte-length L, decodes the following
L bytes as a greedy left-to-right opcode stream, and on success the remainder
is the input after the VarInt and the L script bytes; a leading byte in
1..=75 pushes that many literal bytes, and byte 76 (PUSHDATA1) reads one
length byte and pushes that many literal bytes; the spec's examples hold. -/
theorem c4_script :
    (∀ bytes s rem, Script.parse bytes = .ok s rem →
      ∃ len rest, VarInt.parse bytes = .ok len rest ∧ len.val ≤ rest.length ∧
        (∃ r, parseOps (rest.take len.val) = .ok s.ops r) ∧ rem = rest.drop len.val) ∧
    OpCode.parse [76, 2, 0xAA, 0xBB, 0x99] = .ok (.Push [0xAA, 0xBB]) [0x99] ∧
    OpCode.parse [106, 7] = .ok .Return [7] ∧
    OpCode.parse [2, 0xAA, 0xBB, 0x99] = .ok (.Push [0xAA, 0xBB]) [0x99] ∧
    Script.parse [5, 76, 2, 0xAA, 0xBB, 106, 0x99] =
      .ok ⟨[.Push [0xAA, 0xBB], .Return]⟩ [0x99] := by
  refine ⟨?_, by decide, by decide, by decide, by decide⟩
  intro bytes s rem h
  unfold Script.parse at h
  obtain ⟨len, rest, h1, h2⟩ := pbind_ok h
  refine ⟨len, rest, h1, ?_⟩
  cases hs : slice? rest 0 len.val with
  | none => rw [hs] at h2; cases h2
  | some sb =>
    rw [hs] at h2
    obtain ⟨hle, hlen, hsb⟩ := slice?_some hs
    obtain ⟨ops, r, h3, h4⟩ := pbind_ok h2
    injection h4 with hv hr
    have hsb' : sb = rest.take len.val := by simpa using hsb
    subst hv
    subst hr
    refine ⟨hlen, ⟨r, ?_⟩, rfl⟩
    rw [← hsb']
    exact h3

/-- C4 witness: the structural conjunct applied to a concrete successful
script parse (length byte 1, single Return opcode, one trailing byte). -/
theorem c4_witness :
    ∃ len rest, VarInt.parse [1, 106, 5] = .ok len rest ∧ len.val ≤ rest.length ∧
      (∃ r, parseOps (rest.take len.val) = .ok (Script.mk [.Return]).ops r) ∧
      [5] = rest.drop len.val :=
  c4_script.1 [1, 106, 5] ⟨[.Return]⟩ [5] (by decide)

/-! ## C7 -/

/-- C7: the generic sequence decoder parses a VarInt count and then exactly
that many elements, threading the remainder through each step; count 0 yields
the empty list with the buffer untouched; an element failure (error or panic)
becomes the overall outcome; a successful parse returns exactly `n` elements,
never a partial list. -/
theorem c7_sequence :
    (∀ (α : Type) (p : List Nat → PResult α) bytes len rest,
      VarInt.parse bytes = .ok len rest → Vec.parse p bytes = parseCount p len.val rest) ∧
    (∀ (α : Type) (p : List Nat → PResult α) bytes, parseCount p 0 bytes = .ok [] bytes) ∧
    (∀ (α : Type) (p : List Nat → PResult α) n bytes e, p bytes = .error e →
      parseCount p (n + 1) bytes = .error e) ∧
    (∀ (α : Type) (p : List Nat → PResult α) n bytes, p bytes = .panicked →
      parseCount p (n + 1) bytes = .panicked) ∧
    (∀ (α : Type) (p : List Nat → PResult α) n bytes items rem,
      parseCount p n bytes = .ok items rem → items.length = n) := by
  refine ⟨?_, ?_, ?_, ?_, ?_⟩
  · intro α p bytes len rest h
    unfold Vec.parse
    rw [h]
    rfl
  · intro α p bytes
    rfl
  · intro α p n bytes e h
    unfold parseCount
    rw [h]
    rfl
  · intro α p n bytes h
    unfold parseCount
    rw [h]
    rfl
  · intro α p n
    induction n with
    | zero =>
      intro bytes items rem h
      simp only [parseCount] at h
      injection h with hv hr
      subst hv
      rfl
    | succ n ih =>
      intro bytes items rem h
      unfold parseCount at h
      obtain ⟨item, mid, h1, h2⟩ := pbind_ok h
      obtain ⟨items', r, h3, h4⟩ := pbind_ok h2
      injection h4 with hv hr
      subst hv
      simp [ih mid items' r h3]

/-- C7 witness: the VarInt-then-count conjunct and the exact-length conjunct
applied to a concrete two-element byte sequence. -/
theorem c7_witness :
    Vec.parse U8.parse [2, 7, 8, 9] = parseCount U8.parse 2 [7, 8, 9] ∧
    ([7, 8] : List Nat).length = 2 :=
  ⟨c7_sequence.1 Nat U8.parse [2, 7, 8, 9] ⟨2⟩ [7, 8, 9] (by decide),
   c7_sequence.2.2.2.2 Nat U8.parse 2 [7, 8, 9] [7, 8] [9] (by decide)⟩

/-! ## C9 -/

/-- C9: any buffer with at least 80 bytes decodes as a BlockHeader,
consuming exactly its first 80 bytes: little-endian signed 32-bit version,
32-byte previous-block hash, 32-byte merkle root, then little-endian
unsigned 32-bit timestamp, difficulty bits and nonce, with no VarInt
involved. -/
theorem c9_blockheader (bytes : List Nat) (h : 80 ≤ bytes.length) :
    BlockHeader.parse bytes =
      .ok ⟨i32ofLe (bytes.take 4), (bytes.drop 4).take 32, (bytes.drop 36).take 32,
        leNat ((bytes.drop 68).take 4), leNat ((bytes.drop 72).take 4),
        leNat ((bytes.drop 76).take 4)⟩ (bytes.drop 80) := by
  unfold BlockHeader.parse
  rw [I32_parse_eq (by omega)]
  simp only [pbind]
  have l1 : (32:Nat) ≤ (bytes.drop 4).length := by simp; omega
  rw [Hash32_parse_eq l1]
  simp only [pbind, List.drop_drop]
  norm_num
  have l2 : (32:Nat) ≤ (bytes.drop 36).length := by simp; omega
  rw [Hash32_parse_eq l2]
  simp only [pbind, List.drop_drop]
  norm_num
  have l3 : (4:Nat) ≤ (bytes.drop 68).length := by simp; omega
  rw [U32_parse_eq l3]
  simp only [pbind, List.drop_drop]
  norm_num
  have l4 : (4:Nat) ≤ (bytes.drop 72).length := by simp; omega
  rw [U32_parse_eq l4]
  simp only [pbind, List.drop_drop]
  norm_num
  have l5 : (4:Nat) ≤ (bytes.drop 76).length := by simp; omega
  rw [U32_parse_eq l5]
  simp only [pbind, List.drop_drop]

/-- C9 witness: the theorem applied to the all-zero 80-byte buffer. -/
theorem c9_witness :
    BlockHeader.parse (List.replicate 80 0) =
      .ok ⟨i32ofLe ((List.replicate 80 0).take 4), ((List.replicate 80 0).drop 4).take 32,
        ((List.replicate 80 0).drop 36).take 32,
        leNat (((List.replicate 80 0).drop 68).take 4),
        leNat (((List.replicate 80 0).drop 72).take 4),
        leNat (((List.replicate 80 0).drop 76).take 4)⟩ ((List.replicate 80 0).drop 80) :=
  c9_blockheader (List.replicate 80 0) (by decide)

/-! ## Hex helper lemmas -/

theorem and15_mem : ∀ m ∈ List.range 16, m &&& 15 = m := by decide

theorem and15 {m : Nat} (h : m < 16) : m &&& 15 = m :=
  and15_mem m (List.mem_range.mpr h)

theorem hex_char_cycle : ∀ v ∈ List.range 256,
    char_to_u8 (u8_to_char (v >>> 4)) = .ok (v >>> 4) ∧
    char_to_u8 (u8_to_char v) = .ok (v &&& 15) ∧
    (v >>> 4) <<< 4 ||| (v &&& 15) = v := by decide

theorem nibble_split : ∀ hi ∈ List.range 16, ∀ lo ∈ List.range 16,
    (hi <<< 4 ||| lo) >>> 4 = hi ∧ (hi <<< 4 ||| lo) &&& 15 = lo := by decide

theorem u8_to_char_congr (a b : Nat) (h : a &&& 15 = b &&& 15) :
    u8_to_char a = u8_to_char b := by
  unfold u8_to_char
  rw [h]

theorem to_hex_length : ∀ b : List Nat, (to_hex b).length = 2 * b.length := by
  intro b
  induction b with
  | nil => rfl
  | cons x bs ih =>
    simp [to_hex, ih]
    omega

theorem hexPairs_to_hex : ∀ b : List Nat, (∀ x ∈ b, x < 256) →
    hexPairs (to_hex b) = .ok b := by
  intro b
  induction b with
  | nil => intro _; rfl
  | cons x bs ih =>
    intro hb
    have hx : x < 256 := hb x (by simp)
    have hc := hex_char_cycle x (List.mem_range.mpr hx)
    simp only [to_hex, hexPairs]
    rw [hc.1, hc.2.1, ih (fun y hy => hb y (by simp [hy]))]
    simp [hc.2.2]

theorem char_to_u8_ok {c : Char} {h : Nat} (hc : char_to_u8 c = .ok h) :
    h < 16 ∧ u8_to_char h = asciiLower c := by
  unfold char_to_u8 at hc
  split at hc
  · rename_i h1
    injection hc with hv
    subst hv
    refine ⟨by omega, ?_⟩
    unfold u8_to_char asciiLower
    rw [and15 (by omega), if_pos (by omega : c.toNat - 48 ≤ 9),
      if_neg (by omega : ¬(65 ≤ c.toNat ∧ c.toNat ≤ 90))]
    have he : 48 + (c.toNat - 48) = c.toNat := by omega
    rw [he]
    exact Char.ofNat_toNat c
  · split at hc
    · rename_i h1 h2
      injection hc with hv
      subst hv
      refine ⟨by omega, ?_⟩
      unfold u8_to_char asciiLower
      rw [and15 (by omega), if_neg (by omega : ¬(c.toNat - 87 ≤ 9)),
        if_neg (by omega : ¬(65 ≤ c.toNat ∧ c.toNat ≤ 90))]
      have he : 87 + (c.toNat - 87) = c.toNat := by omega
      rw [he]
      exact Char.ofNat_toNat c
    · split at hc
      · rename_i h1 h2 h3
        injection hc with hv
        subst hv
        refine ⟨by omega, ?_⟩
        unfold u8_to_char asciiLower
        rw [and15 (by omega), if_neg (by omega : ¬(c.toNat - 55 ≤ 9)),
          if_pos (by omega : 65 ≤ c.toNat ∧ c.toNat ≤ 90)]
        have he : 87 + (c.toNat - 55) = c.toNat + 32 := by omega
        rw [he]
      · cases hc

theorem to_hex_hexPairs : ∀ (fuel : Nat) (s : List Char) (bs : List Nat),
    s.length ≤ fuel → s.length % 2 = 0 → hexPairs s = .ok bs →
    to_hex bs = s.map asciiLower := by
  intro fuel
  induction fuel with
  | zero =>
    intro s bs hle _ hp
    cases s with
    | nil =>
      injection hp with hv
      subst hv
      rfl
    | cons c t => simp at hle
  | succ n ih =>
    intro s bs hle heven hp
    cases s with
    | nil =>
      injection hp with hv
      subst hv
      rfl
    | cons c0 t =>
      cases t with
      | nil => simp at heven
      | cons c1 rest =>
        have hl2 : rest.length ≤ n := by simp at hle; omega
        have he2 : rest.length % 2 = 0 := by simp at heven; omega
        simp only [hexPairs] at hp
        cases h0 : char_to_u8 c0 with
        | error e =>
          rw [h0] at hp
          exact Except.noConfusion hp
        | ok hi =>
          rw [h0] at hp
          cases h1 : char_to_u8 c1 with
          | error e =>
            rw [h1] at hp
            exact Except.noConfusion hp
          | ok lo =>
            rw [h1] at hp
            cases h2 : hexPairs rest with
            | error e =>
              rw [h2] at hp
              exact Except.noConfusion hp
            | ok tail =>
              rw [h2] at hp
              injection hp with hv
              subst hv
              have hhi := char_to_u8_ok h0
              have hlo := char_to_u8_ok h1
              have nib := nibble_split hi (List.mem_range.mpr hhi.1) lo
                (List.mem_range.mpr hlo.1)
              have hrest : to_hex tail = rest.map asciiLower := ih rest tail hl2 he2 h2
              simp only [to_hex, List.map]
              rw [nib.1, hhi.2, u8_to_char_congr _ lo (by rw [nib.2, and15 hlo.1]),
                hlo.2, hrest]

/-! ## C6 -/

/-- C6: hex round-trip: decoding an encoding returns the original byte
sequence; encoding a successful decode returns the lowercase form of the
input; encoding is total with output length exactly twice the byte count. -/
theorem c6_hex_roundtrip :
    (∀ b : List Nat, (∀ x ∈ b, x < 256) → from_hex (to_hex b) = .ok b) ∧
    (∀ (s : List Char) (bs : List Nat), from_hex s = .ok bs →
      to_hex bs = s.map asciiLower) ∧
    (∀ b : List Nat, (to_hex b).length = 2 * b.length) := by
  refine ⟨?_, ?_, to_hex_length⟩
  · intro b hb
    unfold from_hex
    rw [to_hex_length b, if_neg (by omega)]
    exact hexPairs_to_hex b hb
  · intro s bs h
    unfold from_hex at h
    split at h
    · cases h
    · rename_i hodd
      exact to_hex_hexPairs s.length s bs le_rfl (by omega) h

/-- C6 witness: both round-trip laws applied at concrete inputs, including a
mixed-case string whose re-encoding is its lowercase form. -/
theorem c6_witness :
    from_hex (to_hex [0xAB, 0x00]) = .ok [0xAB, 0x00] ∧
    to_hex [0xAA, 0xBB] = ['A', 'a', 'B', 'b'].map asciiLower :=
  ⟨c6_hex_roundtrip.1 [0xAB, 0x00] (by decide),
   c6_hex_roundtrip.2.1 ['A', 'a', 'B', 'b'] [0xAA, 0xBB] (by decide)⟩

/-! ## C8 helper lemmas -/

theorem char_ok_of_hex {c : Char} (h : isHexDigitChar c = true) :
    ∃ v, char_to_u8 c = .ok v := by
  unfold isHexDigitChar at h
  simp only [Bool.or_eq_true, Bool.and_eq_true, decide_eq_true_eq] at h
  unfold char_to_u8
  rcases h with (⟨h1, h2⟩ | ⟨h1, h2⟩) | ⟨h1, h2⟩
  · exact ⟨_, by rw [if_pos ⟨h1, h2⟩]⟩
  · exact ⟨_, by rw [if_neg (by omega), if_pos ⟨h1, h2⟩]⟩
  · exact ⟨_, by rw [if_neg (by omega), if_neg (by omega), if_pos ⟨h1, h2⟩]⟩

theorem char_error_of_not_hex {c : Char} (h : isHexDigitChar c = false) :
    char_to_u8 c = .error "Invalid hex digit" := by
  unfold isHexDigitChar at h
  simp only [Bool.or_eq_false_iff, Bool.and_eq_false_iff, decide_eq_false_iff_not,
    Nat.not_le] at h
  unfold char_to_u8
  rw [if_neg (by omega), if_neg (by omega), if_neg (by omega)]

theorem hexPairs_error_iff : ∀ (fuel : Nat) (s : List Char), s.length ≤ fuel →
    s.length % 2 = 0 →
    ((∃ e, hexPairs s = .error e) ↔ ∃ c ∈ s, isHexDigitChar c = false) := by
  intro fuel
  induction fuel with
  | zero =>
    intro s hle _
    cases s with
    | nil => simp [hexPairs]
    | cons c t => simp at hle
  | succ n ih =>
    intro s hle heven
    cases s with
    | nil => simp [hexPairs]
    | cons c0 t =>
      cases t with
      | nil => simp at heven
      | cons c1 rest =>
        have hl2 : rest.length ≤ n := by simp at hle; omega
        have he2 : rest.length % 2 = 0 := by simp at heven; omega
        simp only [hexPairs]
        cases hb0 : isHexDigitChar c0 with
        | false =>
          rw [char_error_of_not_hex hb0]
          constructor
          · intro _
            exact ⟨c0, by simp, hb0⟩
          · intro _
            exact ⟨"Invalid hex digit", rfl⟩
        | true =>
          obtain ⟨v0, hv0⟩ := char_ok_of_hex hb0
          rw [hv0]
          cases hb1 : isHexDigitChar c1 with
          | false =>
            rw [char_error_of_not_hex hb1]
            constructor
            · intro _
              exact ⟨c1, by simp, hb1⟩
            · intro _
              exact ⟨"Invalid hex digit", rfl⟩
          | true =>
            obtain ⟨v1, hv1⟩ := char_ok_of_hex hb1
            rw [hv1]
            cases h2 : hexPairs rest with
            | error e =>
              constructor
              · intro _
                obtain ⟨c, hc, hbad⟩ := (ih rest hl2 he2).mp ⟨e, h2⟩
                exact ⟨c, by simp [hc], hbad⟩
              · intro _
                exact ⟨e, rfl⟩
            | ok tail =>
              constructor
              · intro ⟨e, he⟩
                exact Except.noConfusion he
              · intro ⟨c, hc, hbad⟩
                simp only [List.mem_cons] at hc
                rcases hc with rfl | rfl | hc
                · rw [hb0] at hbad
                  exact Bool.noConfusion hbad
                · rw [hb1] at hbad
                  exact Bool.noConfusion hbad
                · obtain ⟨e, he⟩ := (ih rest hl2 he2).mpr ⟨c, hc, hbad⟩
                  rw [h2] at he
                  exact Except.noConfusion he

/-! ## C8 -/

/-- C8: hex decoding fails exactly when the input has odd length or contains
a character that is not a hex digit (case-insensitively), and otherwise
succeeds; the spec's examples hold, including case-insensitive acceptance. -/
theorem c8_hex_validation :
    (∀ s : List Char, (∃ e, from_hex s = .error e) ↔
      (s.length % 2 = 1 ∨ ∃ c ∈ s, isHexDigitChar c = false)) ∧
    from_hex ['0'] = .error "Odd number of chars" ∧
    from_hex ['0', 'g'] = .error "Invalid hex digit" ∧
    from_hex ['a', 'a', 'b', 'b'] = .ok [0xAA, 0xBB] ∧
    from_hex ['A', 'a', 'B', 'b'] = .ok [0xAA, 0xBB] := by
  refine ⟨?_, by decide, by decide, by decide, by decide⟩
  intro s
  unfold from_hex
  by_cases hodd : s.length % 2 = 1
  · simp [hodd]
  · rw [if_neg hodd]
    rw [hexPairs_error_iff s.length s le_rfl (by omega)]
    simp [hodd]

/-- C8 witness: the iff applied to a concrete even-length input containing a
non-hex character. -/
theorem c8_witness : ∃ e, from_hex ['g', 'g'] = .error e :=
  (c8_hex_validation.1 ['g', 'g']).mpr (Or.inr ⟨'g', by simp, by decide⟩)

/-! ## Suffix-remainder helper lemmas -/

theorem drop_trans {a b c : List Nat} (h1 : ∃ n, b = List.drop n a)
    (h2 : ∃ m, c = List.drop m b) : ∃ k, c = List.drop k a := by
  obtain ⟨n, rfl⟩ := h1
  obtain ⟨m, rfl⟩ := h2
  exact ⟨m + n, by rw [List.drop_drop, Nat.add_comm]⟩

theorem suffixRem_VarInt : SuffixRem VarInt.parse := by
  intro bytes v rem h
  cases bytes with
  | nil => cases h
  | cons b0 rest =>
    simp only [VarInt.parse] at h
    repeat' split at h
    all_goals cases h
    all_goals
      first
      | exact ⟨1, rfl⟩
      | exact ⟨_, rfl⟩

theorem suffixRem_U8 : SuffixRem U8.parse := by
  intro bytes v rem h
  cases bytes with
  | nil => cases h
  | cons b rest =>
    injection h with hv hr
    exact ⟨1, hr.symm⟩

theorem suffixRem_I32 : SuffixRem I32.parse := by
  intro bytes v rem h
  unfold I32.parse at h
  split at h
  · injection h with hv hr
    exact ⟨4, hr.symm⟩
  · cases h

theorem suffixRem_U32 : SuffixRem U32.parse := by
  intro bytes v rem h
  unfold U32.parse at h
  split at h
  · injection h with hv hr
    exact ⟨4, hr.symm⟩
  · cases h

theorem suffixRem_U64 : SuffixRem U64.parse := by
  intro bytes v rem h
  unfold U64.parse at h
  split at h
  · injection h with hv hr
    exact ⟨8, hr.symm⟩
  · cases h

theorem suffixRem_Hash32 : SuffixRem Hash32.parse := by
  intro bytes v rem h
  unfold Hash32.parse at h
  split at h
  · injection h with hv hr
    exact ⟨32, hr.symm⟩
  · cases h

theorem suffixRem_OutPoint : SuffixRem OutPoint.parse := by
  intro bytes v rem h
  unfold OutPoint.parse at h
  obtain ⟨txid, b1, h1, h2⟩ := pbind_ok h
  obtain ⟨vout, b2, h3, h4⟩ := pbind_ok h2
  injection h4 with hv hr
  subst hr
  exact drop_trans (suffixRem_Hash32 bytes txid b1 h1) (suffixRem_U32 b1 vout b2 h3)

theorem suffixRem_OpCode : SuffixRem OpCode.parse := by
  intro bytes v rem h
  cases bytes with
  | nil => cases h
  | cons b0 rest =>
    simp only [OpCode.parse] at h
    repeat' split at h
    all_goals cases h
    all_goals
      first
      | exact ⟨1, rfl⟩
      | exact ⟨_, rfl⟩

theorem suffixRem_Script : SuffixRem Script.parse := by
  intro bytes v rem h
  unfold Script.parse at h
  obtain ⟨len, b1, h1, h2⟩ := pbind_ok h
  cases hs : slice? b1 0 len.val with
  | none =>
    rw [hs] at h2
    cases h2
  | some sb =>
    rw [hs] at h2
    obtain ⟨ops, r, h3, h4⟩ := pbind_ok h2
    injection h4 with hv hr
    subst hr
    exact drop_trans (suffixRem_VarInt bytes len b1 h1) ⟨len.val, rfl⟩

theorem suffixRem_parseCount {α : Type} (p : List Nat → PResult α) (hp : SuffixRem p) :
    ∀ n, SuffixRem (parseCount p n) := by
  intro n
  induction n with
  | zero =>
    intro bytes v rem h
    simp only [parseCount] at h
    injection h with hv hr
    exact ⟨0, hr.symm⟩
  | succ n ih =>
    intro bytes v rem h
    simp only [parseCount] at h
    obtain ⟨item, mid, h1, h2⟩ := pbind_ok h
    obtain ⟨items, r, h3, h4⟩ := pbind_ok h2
    injection h4 with hv hr
    rw [hr] at h3
    exact drop_trans (hp bytes item mid h1) (ih mid items rem h3)

theorem suffixRem_Vec {α : Type} (p : List Nat → PResult α) (hp : SuffixRem p) :
    SuffixRem (Vec.parse p) := by
  intro bytes v rem h
  unfold Vec.parse at h
  obtain ⟨len, b1, h1, h2⟩ := pbind_ok h
  exact drop_trans (suffixRem_VarInt bytes len b1 h1)
    (suffixRem_parseCount p hp len.val b1 v rem h2)

theorem suffixRem_TxIn : SuffixRem TxIn.parse := by
  intro bytes v rem h
  unfold TxIn.parse at h
  obtain ⟨po, b1, h1, h2⟩ := pbind_ok h
  obtain ⟨ss, b2, h3, h4⟩ := pbind_ok h2
  obtain ⟨sq, b3, h5, h6⟩ := pbind_ok h4
  injection h6 with hv hr
  rw [hr] at h5
  have hs1 : ∃ n, b1 = List.drop n bytes := suffixRem_OutPoint bytes po b1 h1
  have hs2 : ∃ n, b2 = List.drop n b1 := by
    by_cases hcb : po.is_coinbase = true
    · rw [if_pos hcb] at h3
      obtain ⟨l, bm, h7, h8⟩ := pbind_ok h3
      injection h8 with hv8 hr8
      rw [hr8] at h7
      exact suffixRem_VarInt b1 l b2 h7
    · rw [if_neg hcb] at h3
      exact suffixRem_Script b1 ss b2 h3
  exact drop_trans hs1 (drop_trans hs2 (suffixRem_U32 b2 sq rem h5))

theorem suffixRem_TxOut : SuffixRem TxOut.parse := by
  intro bytes v rem h
  unfold TxOut.parse at h
  obtain ⟨val, b1, h1, h2⟩ := pbind_ok h
  obtain ⟨spk, b2, h3, h4⟩ := pbind_ok h2
  injection h4 with hv hr
  subst hr
  exact drop_trans (suffixRem_U64 bytes val b1 h1) (suffixRem_Script b1 spk b2 h3)

theorem suffixRem_Transaction : SuffixRem Transaction.parse := by
  intro bytes v rem h
  unfold Transaction.parse at h
  obtain ⟨ver, b1, h1, h2⟩ := pbind_ok h
  obtain ⟨ins, b2, h3, h4⟩ := pbind_ok h2
  obtain ⟨outs, b3, h5, h6⟩ := pbind_ok h4
  obtain ⟨lt, b4, h7, h8⟩ := pbind_ok h6
  injection h8 with hv hr
  subst hr
  exact drop_trans (suffixRem_U32 bytes ver b1 h1)
    (drop_trans (suffixRem_Vec TxIn.parse suffixRem_TxIn b1 ins b2 h3)
      (drop_trans (suffixRem_Vec TxOut.parse suffixRem_TxOut b2 outs b3 h5)
        (suffixRem_U32 b3 lt b4 h7)))

theorem suffixRem_BlockHeader : SuffixRem BlockHeader.parse := by
  intro bytes v rem h
  unfold BlockHeader.parse at h
  obtain ⟨ver, b1, h1, h2⟩ := pbind_ok h
  obtain ⟨pb, b2, h3, h4⟩ := pbind_ok h2
  obtain ⟨mr, b3, h5, h6⟩ := pbind_ok h4
  obtain ⟨ts, b4, h7, h8⟩ := pbind_ok h6
  obtain ⟨bi, b5, h9, h10⟩ := pbind_ok h8
  obtain ⟨no, b6, h11, h12⟩ := pbind_ok h10
  injection h12 with hv hr
  subst hr
  exact drop_trans (suffixRem_I32 bytes ver b1 h1)
    (drop_trans (suffixRem_Hash32 b1 pb b2 h3)
      (drop_trans (suffixRem_Hash32 b2 mr b3 h5)
        (drop_trans (suffixRem_U32 b3 ts b4 h7)
          (drop_trans (suffixRem_U32 b4 bi b5 h9) (suffixRem_U32 b5 no b6 h11)))))

theorem suffixRem_Block : SuffixRem Block.parse := by
  intro bytes v rem h
  unfold Block.parse at h
  obtain ⟨hd, b1, h1, h2⟩ := pbind_ok h
  obtain ⟨txs, b2, h3, h4⟩ := pbind_ok h2
  injection h4 with hv hr
  subst hr
  exact drop_trans (suffixRem_BlockHeader bytes hd b1 h1)
    (suffixRem_Vec Transaction.parse suffixRem_Transaction b1 txs b2 h3)

/-! ## C10 -/

/-- C10: every decoder in the family consumes a prefix of its input: on
success, the remainder it returns is a drop (hence a suffix) of the input
buffer, so successive decodes form a left-to-right fold; for the generic
sequence decoder this holds whenever the element decoder has the property. -/
theorem c10_remainder_suffix :
    SuffixRem VarInt.parse ∧ SuffixRem U8.parse ∧ SuffixRem I32.parse ∧
    SuffixRem U32.parse ∧ SuffixRem U64.parse ∧ SuffixRem Hash32.parse ∧
    SuffixRem OutPoint.parse ∧ SuffixRem OpCode.parse ∧ SuffixRem Script.parse ∧
    SuffixRem TxIn.parse ∧ SuffixRem TxOut.parse ∧ SuffixRem Transaction.parse ∧
    SuffixRem BlockHeader.parse ∧ SuffixRem Block.parse ∧
    (∀ (α : Type) (p : List Nat → PResult α), SuffixRem p → SuffixRem (Vec.parse p)) :=
  ⟨suffixRem_VarInt, suffixRem_U8, suffixRem_I32, suffixRem_U32, suffixRem_U64,
   suffixRem_Hash32, suffixRem_OutPoint, suffixRem_OpCode, suffixRem_Script,
   suffixRem_TxIn, suffixRem_TxOut, suffixRem_Transaction, suffixRem_BlockHeader,
   suffixRem_Block, fun _ p hp => suffixRem_Vec p hp⟩

/-- C10 witness: the VarInt conjunct applied to a concrete parse, exhibiting
the remainder as a drop of the input. -/
theorem c10_witness : ∃ n, ([9] : List Nat) = List.drop n [0xFC, 9] :=
  c10_remainder_suffix.1 [0xFC, 9] ⟨0xFC⟩ [9] (by decide)
